import Mathlib

/-!
Shallow embedding of the market-sitemaps relay (src/server.js): the
app-proxy signature verifier `verifyProxySignature`, the market-identifier
normalization, and the proxy route handler.  The call to Node's
`crypto.createHmac('sha256', secret).update(message).digest('hex')` is
modelled by an executable HMAC-SHA-256 (FIPS 180-4 / RFC 2104) over
UTF-8 bytes, producing lowercase hexadecimal text, exactly as Node does
for string inputs.
-/

/-- Truncate a natural number to a 32-bit word. -/
def w32 (n : Nat) : Nat := n % 4294967296

/-- Rotate a 32-bit word right by k bits. -/
def rotr32 (k x : Nat) : Nat := w32 ((x >>> k) ||| (x <<< (32 - k)))

/-- SHA-256 big sigma-0. -/
def bsig0 (x : Nat) : Nat := rotr32 2 x ^^^ rotr32 13 x ^^^ rotr32 22 x

/-- SHA-256 big sigma-1. -/
def bsig1 (x : Nat) : Nat := rotr32 6 x ^^^ rotr32 11 x ^^^ rotr32 25 x

/-- SHA-256 small sigma-0. -/
def ssig0 (x : Nat) : Nat := rotr32 7 x ^^^ rotr32 18 x ^^^ (x >>> 3)

/-- SHA-256 small sigma-1. -/
def ssig1 (x : Nat) : Nat := rotr32 17 x ^^^ rotr32 19 x ^^^ (x >>> 10)

/-- SHA-256 choice function (not x is taken inside 32 bits). -/
def chf (x y z : Nat) : Nat := (x &&& y) ^^^ ((x ^^^ 4294967295) &&& z)

/-- SHA-256 majority function. -/
def majf (x y z : Nat) : Nat := (x &&& y) ^^^ (x &&& z) ^^^ (y &&& z)

/-- The 64 SHA-256 round constants. -/
def sha256K : List Nat :=
  [1116352408, 1899447441, 3049323471, 3921009573, 961987163, 1508970993,
   2453635748, 2870763221, 3624381080, 310598401, 607225278, 1426881987,
   1925078388, 2162078206, 2614888103, 3248222580, 3835390401, 4022224774,
   264347078, 604807628, 770255983, 1249150122, 1555081692, 1996064986,
   2554220882, 2821834349, 2952996808, 3210313671, 3336571891, 3584528711,
   113926993, 338241895, 666307205, 773529912, 1294757372, 1396182291,
   1695183700, 1986661051, 2177026350, 2456956037, 2730485921, 2820302411,
   3259730800, 3345764771, 3516065817, 3600352804, 4094571909, 275423344,
   430227734, 506948616, 659060556, 883997877, 958139571, 1322822218,
   1537002063, 1747873779, 1955562222, 2024104815, 2227730452, 2361852424,
   2428436474, 2756734187, 3204031479, 3329325298]

/-- The eight 32-bit words of a SHA-256 state. -/
structure Hash8 where
  h0 : Nat
  h1 : Nat
  h2 : Nat
  h3 : Nat
  h4 : Nat
  h5 : Nat
  h6 : Nat
  h7 : Nat
deriving DecidableEq

/-- One SHA-256 compression round: the state plays (a,b,c,d,e,f,g,h), `wk` is
the (schedule word, round constant) pair. -/
def stepRound (s : Hash8) (wk : Nat × Nat) : Hash8 :=
  let t1 := w32 (s.h7 + bsig1 s.h4 + chf s.h4 s.h5 s.h6 + wk.2 + wk.1)
  let t2 := w32 (bsig0 s.h0 + majf s.h0 s.h1 s.h2)
  ⟨w32 (t1 + t2), s.h0, s.h1, s.h2, w32 (s.h3 + t1), s.h4, s.h5, s.h6⟩

/-- Extend the (reversed) message-schedule word list by n words; the head of
the accumulator is the most recent word. -/
def extendRev : Nat → List Nat → List Nat
  | 0, acc => acc
  | n + 1, acc =>
    let w := w32 (ssig1 (acc.getD 1 0) + acc.getD 6 0 + ssig0 (acc.getD 14 0) + acc.getD 15 0)
    extendRev n (w :: acc)

/-- Pack big-endian bytes into 32-bit words, four at a time. -/
def toWords : List Nat → List Nat
  | b0 :: b1 :: b2 :: b3 :: rest =>
    ((b0 <<< 24) ||| (b1 <<< 16) ||| (b2 <<< 8) ||| b3) :: toWords rest
  | _ => []

/-- SHA-256 compression of one 64-byte block into the running state. -/
def compressBlock (h : Hash8) (block : List Nat) : Hash8 :=
  let ws := (extendRev 48 (toWords block).reverse).reverse
  let f := (ws.zip sha256K).foldl stepRound h
  ⟨w32 (h.h0 + f.h0), w32 (h.h1 + f.h1), w32 (h.h2 + f.h2), w32 (h.h3 + f.h3),
   w32 (h.h4 + f.h4), w32 (h.h5 + f.h5), w32 (h.h6 + f.h6), w32 (h.h7 + f.h7)⟩

/-- The 8-byte big-endian encoding of the message bit length. -/
def lenBytes (bitLen : Nat) : List Nat :=
  [(bitLen >>> 56) &&& 255, (bitLen >>> 48) &&& 255, (bitLen >>> 40) &&& 255,
   (bitLen >>> 32) &&& 255, (bitLen >>> 24) &&& 255, (bitLen >>> 16) &&& 255,
   (bitLen >>> 8) &&& 255, bitLen &&& 255]

/-- SHA-256 padding: append 0x80, zeros to 56 mod 64, then the bit length. -/
def padBytes (msg : List Nat) : List Nat :=
  let zeros := (120 - ((msg.length + 1) % 64)) % 64
  msg ++ 0x80 :: (List.replicate zeros 0 ++ lenBytes (8 * msg.length))

/-- Split a byte list into 64-byte blocks (fuel-driven, structurally
recursive so that concrete instances reduce inside the kernel). -/
def chunksAux : Nat → List Nat → List (List Nat)
  | 0, _ => []
  | _, [] => []
  | n + 1, bs => bs.take 64 :: chunksAux n (bs.drop 64)

/-- The SHA-256 initial state. -/
def initHash : Hash8 :=
  ⟨1779033703, 3144134277, 1013904242, 2773480762,
   1359893119, 2600822924, 528734635, 1541459225⟩

/-- SHA-256 of a byte list, as the final eight-word state. -/
def sha256Hash (msg : List Nat) : Hash8 :=
  let padded := padBytes msg
  (chunksAux padded.length padded).foldl compressBlock initHash

/-- Big-endian bytes of a 32-bit word. -/
def wordBytes (w : Nat) : List Nat :=
  [(w >>> 24) &&& 255, (w >>> 16) &&& 255, (w >>> 8) &&& 255, w &&& 255]

/-- SHA-256 of a byte list, as 32 bytes. -/
def sha256Bytes (msg : List Nat) : List Nat :=
  let h := sha256Hash msg
  wordBytes h.h0 ++ wordBytes h.h1 ++ wordBytes h.h2 ++ wordBytes h.h3 ++
  wordBytes h.h4 ++ wordBytes h.h5 ++ wordBytes h.h6 ++ wordBytes h.h7

/-- Lowercase hexadecimal digit for a nibble. -/
def hexDigit (n : Nat) : Char :=
  match n with
  | 0 => '0' | 1 => '1' | 2 => '2' | 3 => '3'
  | 4 => '4' | 5 => '5' | 6 => '6' | 7 => '7'
  | 8 => '8' | 9 => '9' | 10 => 'a' | 11 => 'b'
  | 12 => 'c' | 13 => 'd' | 14 => 'e' | _ => 'f'

/-- The eight nibbles of a 32-bit word, most significant first. -/
def nibbles (w : Nat) : List Nat :=
  [(w >>> 28) &&& 15, (w >>> 24) &&& 15, (w >>> 20) &&& 15, (w >>> 16) &&& 15,
   (w >>> 12) &&& 15, (w >>> 8) &&& 15, (w >>> 4) &&& 15, w &&& 15]

/-- Lowercase-hex rendering of a SHA-256 state (64 hex characters). -/
def digestHex (h : Hash8) : String :=
  String.mk ((([h.h0, h.h1, h.h2, h.h3, h.h4, h.h5, h.h6, h.h7].map nibbles).flatten).map hexDigit)

/-- UTF-8 encoding of one character. -/
def utf8Enc (c : Char) : List Nat :=
  let n := c.toNat
  if n < 128 then [n]
  else if n < 2048 then [192 ||| (n >>> 6), 128 ||| (n &&& 63)]
  else if n < 65536 then
    [224 ||| (n >>> 12), 128 ||| ((n >>> 6) &&& 63), 128 ||| (n &&& 63)]
  else
    [240 ||| (n >>> 18), 128 ||| ((n >>> 12) &&& 63), 128 ||| ((n >>> 6) &&& 63), 128 ||| (n &&& 63)]

/-- UTF-8 bytes of a string. -/
def strBytes (s : String) : List Nat := (s.data.map utf8Enc).flatten

/-- HMAC-SHA-256 of a message under a key (both strings, UTF-8), rendered as
lowercase hexadecimal: the model of Node's createHmac / update / digest. -/
def hmacSha256Hex (key msg : String) : String :=
  let kb := strBytes key
  let k0 := if 64 < kb.length then sha256Bytes kb else kb
  let kpad := k0 ++ List.replicate (64 - k0.length) 0
  let inner := sha256Bytes ((kpad.map (fun b => b ^^^ 54)) ++ strBytes msg)
  digestHex (sha256Hash ((kpad.map (fun b => b ^^^ 92)) ++ inner))

/-- A query-parameter collection: name/value pairs in insertion order.  A
JavaScript object has at most one entry per key; theorems that depend on
that invariant carry a `Nodup` hypothesis on the key list. -/
abbrev Query := List (String × String)

/-- The rest pattern of `const { signature, ...params } = query`: a fresh
collection holding every parameter except `signature`. -/
def restParams (q : Query) : Query := q.filter (fun p => !(p.1 == "signature"))

/-- The separator-less join of `[].join('')`. -/
def joinStr : List String → String
  | [] => ""
  | s :: rest => s ++ joinStr rest

/-- The canonical message of `verifyProxySignature`, from src/server.js:
`Object.keys(params).sort().map(key => key + "=" + params[key]).join('')` —
the non-signature parameter names in ascending lexicographic order, each
concatenated as name=value with no separator. -/
def canonicalMessage (q : Query) : String :=
  joinStr ((List.insertionSort (fun a b : String => a ≤ b) ((restParams q).map Prod.fst)).map
    (fun k => k ++ "=" ++ (List.lookup k (restParams q)).getD ""))

/-- The verifier `verifyProxySignature(query)` of src/server.js.  The
process-wide `SHOPIFY_APP_SECRET` environment value is passed explicitly
(`none` models an unset variable); JavaScript falsiness of a string is
absence or emptiness. -/
def verifyProxySignature (secret : Option String) (query : Query) : Bool :=
  let signature := List.lookup "signature" query
  match signature with
  | none => false
  | some sig =>
    if sig = "" then false
    else
      match secret with
      | none => false
      | some s =>
        if s = "" then false
        else
          let message := canonicalMessage query
          let calculated := hmacSha256Hex s message
          calculated == sig

/-- State-passing rendering of `verifyProxySignature`: the second component
is the query object as left behind by the call.  Every step of the source
only reads the object — the rest destructuring copies the non-signature
entries into a fresh collection — so each branch returns the object
unchanged. -/
def verifyProxySignatureSt (secret : Option String) (query : Query) : Bool × Query :=
  let signature := List.lookup "signature" query
  let params := query.filter (fun p => !(p.1 == "signature"))
  match signature with
  | none => (false, query)
  | some sig =>
    if sig = "" then (false, query)
    else
      match secret with
      | none => (false, query)
      | some s =>
        if s = "" then (false, query)
        else
          let message := joinStr ((List.insertionSort (fun a b : String => a ≤ b)
            (params.map Prod.fst)).map (fun k => k ++ "=" ++ (List.lookup k params).getD ""))
          (hmacSha256Hex s message == sig, query)

/-- Lowercasing of one character, as JavaScript toLowerCase acts on the
ASCII range (the only characters the routes use). -/
def lowerChar (c : Char) : Char :=
  if 'A' ≤ c ∧ c ≤ 'Z' then Char.ofNat (c.toNat + 32) else c

/-- The model of `market.toLowerCase()`. -/
def jsToLower (s : String) : String := String.mk (s.data.map lowerChar)

/-- Does `pat` occur at the head of `cs`? -/
def matchesAt (pat cs : List Char) : Bool :=
  match pat, cs with
  | [], _ => true
  | _ :: _, [] => false
  | p :: ps, c :: rest => p == c && matchesAt ps rest

/-- JavaScript `String.replace` with a plain-string pattern and empty
replacement: remove the first occurrence of `pat`, scanning left to
right; leave the string unchanged when `pat` does not occur. -/
def replFirst (pat : List Char) : List Char → List Char
  | [] => []
  | c :: rest =>
    if matchesAt pat (c :: rest) then (c :: rest).drop pat.length
    else c :: replFirst pat rest

/-- The characters of the search pattern `'.xml'`. -/
def xmlPat : List Char := ['.', 'x', 'm', 'l']

/-- The market identifier computed by the route handler:
`req.params.market.toLowerCase().replace('.xml', '')`. -/
def normalizeMarket (market : String) : String :=
  String.mk (replFirst xmlPat (jsToLower market).data)

/-- Index of the first occurrence of `pat` in a character list, if any. -/
def findPatIdx (pat : List Char) : List Char → Option Nat
  | [] => none
  | c :: rest =>
    if matchesAt pat (c :: rest) then some 0
    else (findPatIdx pat rest).map (· + 1)

/-- Does `cs` end with `pat`? -/
def endsWithPat (pat cs : List Char) : Bool := matchesAt pat.reverse cs.reverse

/-- Modelled from the spec: the market identifier is the path parameter
case-folded to lowercase with a trailing `.xml` suffix (and only a
trailing one) stripped, no other characters altered or removed.  Stated
here to compare against the `normalizeMarket` the code computes. -/
def specNormalizeMarket (market : String) : String :=
  if endsWithPat xmlPat (jsToLower market).data then
    String.mk ((jsToLower market).data.take ((jsToLower market).data.length - 4))
  else jsToLower market

/-- An HTTP response as the handler shapes it: status, body, and the
content type the handler sets explicitly (if any). -/
structure HttpResponse where
  status : Nat
  body : String
  contentType : Option String
deriving DecidableEq

/-- The market-document branch of the route handler: look up the sitemap
file for the normalized market in the content store and send it as XML,
or answer 404 quoting the raw path parameter, as the try/catch of
src/server.js does. -/
def serveMarketDoc (store : String → Option String) (market : String) : HttpResponse :=
  match store (normalizeMarket market) with
  | some xml => ⟨200, xml, some "application/xml; charset=utf-8"⟩
  | none => ⟨404, "Sitemap not found for market: " ++ market, none⟩

/-- The GET /proxy/sitemaps/:market handler of src/server.js.  `skipEnv` is
the SKIP_VERIFICATION environment value; the source compares it to the
exact text 'true'.  The second component records whether the market
document resolver (the file lookup and read) ran for this request. -/
def handleProxySitemap (secret : Option String) (skipEnv : Option String)
    (store : String → Option String) (market : String) (query : Query) :
    HttpResponse × Bool :=
  let skipVerification := skipEnv == some "true"
  if !skipVerification then
    if !(verifyProxySignature secret query) then
      (⟨403, "Forbidden", none⟩, false)
    else
      (serveMarketDoc store market, true)
  else
    (serveMarketDoc store market, true)

/-- Replacement of the value stored under one key, used to state the
claims about altering a single parameter. -/
def setParam (q : Query) (k v : String) : Query :=
  q.map (fun p => if p.1 == k then (p.1, v) else p)

/-- The sixteen lowercase hexadecimal characters. -/
def hexCharsList : List Char :=
  ['0', '1', '2', '3', '4', '5'] ++ ['6', '7', '8', '9', 'a', 'b'] ++ ['c', 'd', 'e', 'f']

/-- Numeric value of a lowercase hexadecimal character. -/
def hexCharVal (c : Char) : Nat :=
  match c with
  | '0' => 0 | '1' => 1 | '2' => 2 | '3' => 3
  | '4' => 4 | '5' => 5 | '6' => 6 | '7' => 7
  | '8' => 8 | '9' => 9 | 'a' => 10 | 'b' => 11
  | 'c' => 12 | 'd' => 13 | 'e' => 14 | _ => 15

/-- Base-16 positional value of a character list of hexadecimal digits. -/
def hvList : List Char → Nat
  | [] => 0
  | c :: cs => hexCharVal c * 16 ^ cs.length + hvList cs

theorem strData_append (s t : String) : (s ++ t).data = s.data ++ t.data := by
  cases s; cases t; rfl

theorem strMk_data (s : String) : String.mk s.data = s := by
  cases s; rfl

theorem strAppend_empty (s : String) : s ++ "" = s := by
  cases s with
  | mk d =>
    show String.mk (d ++ []) = String.mk d
    rw [List.append_nil]

theorem hmacSha256Hex_length (key msg : String) : (hmacSha256Hex key msg).length = 64 := rfl

theorem hmacSha256Hex_ne_empty (key msg : String) : hmacSha256Hex key msg ≠ "" := by
  intro h
  have h2 := congrArg String.length h
  rw [hmacSha256Hex_length] at h2
  exact absurd h2 (by decide)

theorem lookup_mem {q : Query} {k v : String} (h : List.lookup k q = some v) : (k, v) ∈ q := by
  induction q with
  | nil => simp [List.lookup] at h
  | cons p rest ih =>
    rw [List.lookup] at h
    cases hk : k == p.1 with
    | true =>
      rw [hk] at h
      have hkey : k = p.1 := by simpa [beq_iff_eq] using hk
      have hval : p.2 = v := by simpa using h
      cases p
      simp_all
    | false =>
      rw [hk] at h
      exact List.mem_cons_of_mem _ (ih (by simpa using h))


theorem lookup_eq_none_iff {q : Query} {k : String} :
    List.lookup k q = none ↔ k ∉ q.map Prod.fst := by
  induction q with
  | nil => simp [List.lookup]
  | cons p rest ih =>
    rw [List.lookup]
    cases hk : k == p.1 with
    | true =>
      have hkey : k = p.1 := by simpa [beq_iff_eq] using hk
      simp [hkey]
    | false =>
      have hkey : ¬ k = p.1 := by simpa [beq_iff_eq] using hk
      simp [hkey, ih]

theorem nodup_mem_lookup {q : Query} {k v : String}
    (hnd : (q.map Prod.fst).Nodup) (hm : (k, v) ∈ q) :
    List.lookup k q = some v := by
  induction q with
  | nil => simp at hm
  | cons p rest ih =>
    have hnd' : p.1 ∉ rest.map Prod.fst ∧ (rest.map Prod.fst).Nodup := by
      rw [List.map_cons, List.nodup_cons] at hnd
      exact hnd
    rw [List.lookup]
    rcases List.mem_cons.mp hm with heq | htail
    · obtain rfl : p = (k, v) := heq.symm
      simp
    · have hkeytail : k ∈ rest.map Prod.fst :=
        List.mem_map.mpr ⟨(k, v), htail, rfl⟩
      have hne : ¬ k = p.1 := by
        intro hkey
        exact hnd'.1 (hkey ▸ hkeytail)
      rw [show (k == p.1) = false by simpa [beq_iff_eq] using hne]
      exact ih hnd'.2 htail

theorem perm_lookup {q₁ q₂ : Query} (hp : q₁.Perm q₂)
    (hnd : (q₁.map Prod.fst).Nodup) (k : String) :
    List.lookup k q₁ = List.lookup k q₂ := by
  cases h : List.lookup k q₁ with
  | some v =>
    exact ((nodup_mem_lookup ((hp.map Prod.fst).nodup_iff.mp hnd)
      (hp.mem_iff.mp (lookup_mem h))).symm) ▸ rfl
  | none =>
    symm
    rw [lookup_eq_none_iff]
    intro hmem
    exact (lookup_eq_none_iff.mp h) ((hp.map Prod.fst).mem_iff.mpr hmem)

/-- C1: the verifier accepts exactly when a `signature` parameter is
present, the shared secret is configured and non-empty, and the supplied
signature equals the lowercase-hex HMAC-SHA-256, keyed by the secret, of
the canonical message: the non-signature parameter names in ascending
lexicographic order, each concatenated as name=value with no separator. -/
theorem c1_verifier_accepts_iff (secret : Option String) (q : Query) :
    verifyProxySignature secret q = true ↔
      ∃ s sig, secret = some s ∧ s ≠ "" ∧
        List.lookup "signature" q = some sig ∧
        sig = hmacSha256Hex s (canonicalMessage q) := by
  unfold verifyProxySignature
  cases hsig : List.lookup "signature" q with
  | none => simp
  | some sig =>
    dsimp only
    by_cases hse : sig = ""
    · subst hse
      simp only [if_pos rfl]
      constructor
      · intro hfalse
        cases hfalse
      · rintro ⟨s, sig', _, _, hlu, heq⟩
        obtain rfl : sig' = "" := (Option.some.inj hlu).symm
        exact absurd heq.symm (hmacSha256Hex_ne_empty _ _)
    · rw [if_neg hse]
      cases secret with
      | none => simp
      | some s =>
        dsimp only
        by_cases hs : s = ""
        · subst hs
          simp
        · rw [if_neg hs]
          constructor
          · intro h
            have h' : hmacSha256Hex s (canonicalMessage q) = sig := by
              simpa [beq_iff_eq] using h
            exact ⟨s, sig, rfl, hs, rfl, h'.symm⟩
          · rintro ⟨s', sig', hsec, _, hlu, heq⟩
            obtain rfl : s' = s := (Option.some.inj hsec).symm
            obtain rfl : sig' = sig := (Option.some.inj hlu).symm
            simpa [beq_iff_eq] using heq.symm

/-- C2: the verifier is a total boolean function and answers false whenever
the `signature` parameter is absent, whenever the shared secret is unset or
empty, and whenever the supplied signature differs from the computed
digest.  Totality (no exception) is inherent in the model: every branch of
the source returns a boolean. -/
theorem c2_verifier_fails_closed (secret : Option String) (q : Query) :
    (List.lookup "signature" q = none → verifyProxySignature secret q = false) ∧
    (secret = none ∨ secret = some "" → verifyProxySignature secret q = false) ∧
    (∀ s sig, secret = some s → List.lookup "signature" q = some sig →
      sig ≠ hmacSha256Hex s (canonicalMessage q) → verifyProxySignature secret q = false) := by
  refine ⟨?_, ?_, ?_⟩
  · intro h
    cases hb : verifyProxySignature secret q with
    | false => rfl
    | true =>
      obtain ⟨s, sig, _, _, hlu, _⟩ := (c1_verifier_accepts_iff secret q).mp hb
      rw [h] at hlu
      cases hlu
  · intro h
    cases hb : verifyProxySignature secret q with
    | false => rfl
    | true =>
      obtain ⟨s, sig, hsec, hs, _, _⟩ := (c1_verifier_accepts_iff secret q).mp hb
      rcases h with rfl | rfl
      · cases hsec
      · exact absurd (Option.some.inj hsec).symm hs
  · intro s sig hsec hlu hne
    cases hb : verifyProxySignature secret q with
    | false => rfl
    | true =>
      obtain ⟨s', sig', hsec', _, hlu', heq⟩ := (c1_verifier_accepts_iff secret q).mp hb
      rw [hsec] at hsec'
      obtain rfl : s' = s := (Option.some.inj hsec').symm
      rw [hlu] at hlu'
      obtain rfl : sig' = sig := (Option.some.inj hlu').symm
      exact absurd heq hne

/-- Witness for C2 at concrete inputs: missing signature, empty secret, and
a signature that cannot be the 64-character digest. -/
theorem c2_verifier_fails_closed_witness :
    verifyProxySignature (some "k") [] = false ∧
    verifyProxySignature (some "") [("signature", "x")] = false ∧
    verifyProxySignature (some "k") [("a", "1"), ("signature", "abc")] = false := by
  refine ⟨(c2_verifier_fails_closed (some "k") []).1 rfl,
          (c2_verifier_fails_closed (some "") [("signature", "x")]).2.1 (Or.inr rfl),
          (c2_verifier_fails_closed (some "k") [("a", "1"), ("signature", "abc")]).2.2
            "k" "abc" rfl rfl ?_⟩
  intro h
  have h2 := congrArg String.length h
  rw [hmacSha256Hex_length] at h2
  exact absurd h2 (by decide)

/-- C9: on a query whose only key is `signature` the canonical message is
empty, and the verifier accepts exactly the digest of the empty message:
verification can succeed with zero authenticated parameters. -/
theorem c9_signature_only_query (s v : String) (hs : s ≠ "") :
    canonicalMessage [("signature", v)] = "" ∧
    (verifyProxySignature (some s) [("signature", v)] = true ↔ v = hmacSha256Hex s "") := by
  have hc : canonicalMessage [("signature", v)] = "" := by
    simp [canonicalMessage, restParams, joinStr]
  refine ⟨hc, ?_⟩
  rw [c1_verifier_accepts_iff]
  constructor
  · rintro ⟨s', sig, hsec, _, hlu, heq⟩
    obtain rfl : s' = s := (Option.some.inj hsec).symm
    have hl : List.lookup "signature" [("signature", v)] = some v := by
      simp [List.lookup]
    rw [hl] at hlu
    obtain rfl : sig = v := (Option.some.inj hlu).symm
    rw [hc] at heq
    exact heq
  · intro hv
    refine ⟨s, v, rfl, hs, by simp [List.lookup], ?_⟩
    rw [hc]
    exact hv

/-- Witness for C9: a configured secret and the digest of the empty
message as the supplied signature. -/
theorem c9_signature_only_query_witness :
    ("secret0" : String) ≠ "" ∧
    (canonicalMessage [("signature", hmacSha256Hex "secret0" "")] = "" ∧
      (verifyProxySignature (some "secret0") [("signature", hmacSha256Hex "secret0" "")] = true ↔
        hmacSha256Hex "secret0" "" = hmacSha256Hex "secret0" "")) :=
  ⟨by decide, c9_signature_only_query "secret0" (hmacSha256Hex "secret0" "") (by decide)⟩

/-- C10: the verifier leaves the query object exactly as it found it — the
`signature` key is excluded by copying the rest into a fresh collection,
not by deleting from the input — and the instrumented state-passing
rendering returns the same boolean as the plain one. -/
theorem c10_verifier_preserves_query (secret : Option String) (q : Query) :
    (verifyProxySignatureSt secret q).2 = q ∧
    (verifyProxySignatureSt secret q).1 = verifyProxySignature secret q := by
  unfold verifyProxySignatureSt verifyProxySignature
  cases List.lookup "signature" q with
  | none => exact ⟨rfl, rfl⟩
  | some sig =>
    dsimp only
    by_cases hse : sig = ""
    · simp [hse]
    · rw [if_neg hse, if_neg hse]
      cases secret with
      | none => exact ⟨rfl, rfl⟩
      | some s =>
        dsimp only
        by_cases hs : s = ""
        · simp [hs]
        · rw [if_neg hs, if_neg hs]
          exact ⟨rfl, rfl⟩

/-- C7: with the SKIP_VERIFICATION environment value unset the handler
verifies every request (rejecting exactly when the verifier answers
false), and with the bypass enabled it serves the document regardless of
the query, signature included. -/
theorem c7_bypass_default_off (secret : Option String) (store : String → Option String)
    (market : String) (q : Query) :
    (handleProxySitemap secret none store market q =
      if verifyProxySignature secret q then (serveMarketDoc store market, true)
      else (⟨403, "Forbidden", none⟩, false)) ∧
    (handleProxySitemap secret (some "true") store market q =
      (serveMarketDoc store market, true)) := by
  constructor
  · unfold handleProxySitemap
    have hskip : ((none : Option String) == some "true") = false := rfl
    rw [hskip]
    cases hv : verifyProxySignature secret q <;> simp [hv]
  · unfold handleProxySitemap
    rfl

/-- C6: when verification is not bypassed and the verifier rejects, the
handler answers 403 with the plain-text body Forbidden and the market
document resolver is never invoked (second component false). -/
theorem c6_forbidden_no_resolver (secret skipEnv : Option String)
    (store : String → Option String) (market : String) (q : Query)
    (hskip : skipEnv ≠ some "true")
    (hv : verifyProxySignature secret q = false) :
    handleProxySitemap secret skipEnv store market q = (⟨403, "Forbidden", none⟩, false) := by
  unfold handleProxySitemap
  have h1 : (skipEnv == some "true") = false := by
    simpa using hskip
  rw [h1, hv]
  rfl

/-- Witness for C6: unset bypass, no signature in the query. -/
theorem c6_forbidden_no_resolver_witness :
    verifyProxySignature none [] = false ∧
    handleProxySitemap none none (fun _ => none) "austria" [] =
      (⟨403, "Forbidden", none⟩, false) :=
  ⟨rfl, c6_forbidden_no_resolver none none (fun _ => none) "austria" [] (by simp) rfl⟩

/-- C8: the digest comparison is exact string equality, hence
case-sensitive: a supplied signature that lowercases to the computed
digest but is not equal to it is rejected. -/
theorem c8_comparison_case_sensitive (s : String) (q : Query) (sig : String)
    (hlu : List.lookup "signature" q = some sig)
    (hlow : jsToLower sig = hmacSha256Hex s (canonicalMessage q))
    (hne : sig ≠ hmacSha256Hex s (canonicalMessage q)) :
    verifyProxySignature (some s) q = false := by
  cases hb : verifyProxySignature (some s) q with
  | false => rfl
  | true =>
    obtain ⟨s', sig', hsec, _, hlu', heq⟩ := (c1_verifier_accepts_iff (some s) q).mp hb
    obtain rfl : s' = s := (Option.some.inj hsec).symm
    rw [hlu] at hlu'
    obtain rfl : sig' = sig := (Option.some.inj hlu').symm
    exact absurd heq hne

set_option maxRecDepth 1000000 in
/-- Witness for C8: the true digest of a=1 under secret k with its hex
letters uppercased is rejected. -/
theorem c8_comparison_case_sensitive_witness :
    jsToLower "310F57DE49873563B85599A4AAA688883C5C6EBC7D3925020D99379D1A4D0AF8" =
      hmacSha256Hex "k" (canonicalMessage
        [("a", "1"), ("signature", "310F57DE49873563B85599A4AAA688883C5C6EBC7D3925020D99379D1A4D0AF8")]) ∧
    "310F57DE49873563B85599A4AAA688883C5C6EBC7D3925020D99379D1A4D0AF8" ≠
      hmacSha256Hex "k" (canonicalMessage
        [("a", "1"), ("signature", "310F57DE49873563B85599A4AAA688883C5C6EBC7D3925020D99379D1A4D0AF8")]) ∧
    verifyProxySignature (some "k")
      [("a", "1"), ("signature", "310F57DE49873563B85599A4AAA688883C5C6EBC7D3925020D99379D1A4D0AF8")] = false := by
  have h1 : jsToLower "310F57DE49873563B85599A4AAA688883C5C6EBC7D3925020D99379D1A4D0AF8" =
      hmacSha256Hex "k" (canonicalMessage
        [("a", "1"), ("signature", "310F57DE49873563B85599A4AAA688883C5C6EBC7D3925020D99379D1A4D0AF8")]) := by
    decide
  have h2 : "310F57DE49873563B85599A4AAA688883C5C6EBC7D3925020D99379D1A4D0AF8" ≠
      hmacSha256Hex "k" (canonicalMessage
        [("a", "1"), ("signature", "310F57DE49873563B85599A4AAA688883C5C6EBC7D3925020D99379D1A4D0AF8")]) := by
    decide
  exact ⟨h1, h2, c8_comparison_case_sensitive "k" _ _ rfl h1 h2⟩

theorem canonical_perm {q₁ q₂ : Query} (hp : q₁.Perm q₂)
    (hnd : (q₁.map Prod.fst).Nodup) :
    canonicalMessage q₁ = canonicalMessage q₂ := by
  haveI : IsTotal String (fun a b : String => a ≤ b) := ⟨fun a b => le_total a b⟩
  haveI : IsTrans String (fun a b : String => a ≤ b) := ⟨fun _ _ _ h1 h2 => le_trans h1 h2⟩
  haveI : IsAntisymm String (fun a b : String => a ≤ b) := ⟨fun _ _ h1 h2 => le_antisymm h1 h2⟩
  have hpr : (restParams q₁).Perm (restParams q₂) := hp.filter _
  have hnd₁ : ((restParams q₁).map Prod.fst).Nodup := by
    have hsub : (restParams q₁).Sublist q₁ := List.filter_sublist _
    exact hnd.sublist (hsub.map Prod.fst)
  have hkeys : ((restParams q₁).map Prod.fst).Perm ((restParams q₂).map Prod.fst) :=
    hpr.map _
  have hsorted :
      List.insertionSort (fun a b : String => a ≤ b) ((restParams q₁).map Prod.fst) =
      List.insertionSort (fun a b : String => a ≤ b) ((restParams q₂).map Prod.fst) := by
    exact List.eq_of_perm_of_sorted
      (((List.perm_insertionSort _ _).trans hkeys).trans (List.perm_insertionSort _ _).symm)
      (List.sorted_insertionSort _ _) (List.sorted_insertionSort _ _)
  unfold canonicalMessage
  rw [hsorted]
  congr 1
  apply List.map_congr_left
  intro k _
  rw [perm_lookup hpr hnd₁ k]

/-- C4: canonicalization does not depend on the insertion order of the
query mapping — two mappings holding the same key-value pairs produce the
identical canonical message, and the verifier answers the same on both. -/
theorem c4_order_invariance (q₁ q₂ : Query) (secret : Option String)
    (hp : q₁.Perm q₂) (hnd : (q₁.map Prod.fst).Nodup) :
    canonicalMessage q₁ = canonicalMessage q₂ ∧
    verifyProxySignature secret q₁ = verifyProxySignature secret q₂ := by
  have hc := canonical_perm hp hnd
  refine ⟨hc, ?_⟩
  unfold verifyProxySignature
  rw [perm_lookup hp hnd "signature", hc]

/-- Witness for C4: the same two pairs in both insertion orders. -/
theorem c4_order_invariance_witness :
    ([("b", "2"), ("a", "1")] : Query).Perm [("a", "1"), ("b", "2")] ∧
    (([("b", "2"), ("a", "1")] : Query).map Prod.fst).Nodup ∧
    (canonicalMessage [("b", "2"), ("a", "1")] = canonicalMessage [("a", "1"), ("b", "2")] ∧
      verifyProxySignature (some "k") [("b", "2"), ("a", "1")] =
        verifyProxySignature (some "k") [("a", "1"), ("b", "2")]) :=
  ⟨by decide, by decide, c4_order_invariance _ _ (some "k") (by decide) (by decide)⟩

theorem matchesAt_iff {pat cs : List Char} : matchesAt pat cs = true ↔ pat <+: cs := by
  induction pat generalizing cs with
  | nil => simp [matchesAt]
  | cons p ps ih =>
    cases cs with
    | nil => simp [matchesAt]
    | cons c rest =>
      simp [matchesAt, Bool.and_eq_true, beq_iff_eq, ih, List.cons_prefix_cons]

theorem replFirst_of_none {pat cs : List Char} (h : findPatIdx pat cs = none) :
    replFirst pat cs = cs := by
  induction cs with
  | nil => rfl
  | cons c rest ih =>
    rw [findPatIdx] at h
    by_cases hm : matchesAt pat (c :: rest) = true
    · rw [if_pos hm] at h
      cases h
    · rw [if_neg hm] at h
      have hrest : findPatIdx pat rest = none := by
        cases hf : findPatIdx pat rest
        · rfl
        · rw [hf] at h
          cases h
      rw [replFirst, if_neg hm, ih hrest]

theorem no_occur_of_findPatIdx_none {pat : List Char} (hne : pat ≠ [])
    {cs : List Char} (h : findPatIdx pat cs = none) :
    ∀ A B : List Char, cs ≠ A ++ (pat ++ B) := by
  induction cs with
  | nil =>
    intro A B habs
    rcases List.append_eq_nil.mp habs.symm with ⟨-, h2⟩
    exact hne (List.append_eq_nil.mp h2).1
  | cons c rest ih =>
    intro A B habs
    rw [findPatIdx] at h
    by_cases hm : matchesAt pat (c :: rest) = true
    · rw [if_pos hm] at h
      cases h
    · rw [if_neg hm] at h
      have hrest : findPatIdx pat rest = none := by
        cases hf : findPatIdx pat rest
        · rfl
        · rw [hf] at h
          cases h
      cases A with
      | nil =>
        apply hm
        rw [matchesAt_iff]
        exact ⟨B, by simpa using habs.symm⟩
      | cons a A' =>
        have htail : rest = A' ++ (pat ++ B) := by
          have := List.cons.injEq c rest a (A' ++ (pat ++ B)) ▸ habs
          exact (List.cons.inj habs).2
        exact ih hrest A' B htail

theorem replFirst_of_some {pat : List Char} {cs : List Char} {i : Nat}
    (h : findPatIdx pat cs = some i) :
    replFirst pat cs = cs.take i ++ cs.drop (i + pat.length) := by
  induction cs generalizing i with
  | nil =>
    rw [findPatIdx] at h
    cases h
  | cons c rest ih =>
    rw [findPatIdx] at h
    by_cases hm : matchesAt pat (c :: rest) = true
    · rw [if_pos hm] at h
      obtain rfl : i = 0 := (Option.some.inj h).symm
      rw [replFirst, if_pos hm]
      simp
    · rw [if_neg hm] at h
      cases hf : findPatIdx pat rest with
      | none =>
        rw [hf] at h
        cases h
      | some j =>
        rw [hf] at h
        obtain rfl : i = j + 1 := (Option.some.inj (by simpa using h)).symm
        rw [replFirst, if_neg hm, ih hf]
        have harith : j + 1 + pat.length = (j + pat.length) + 1 := by omega
        rw [harith]
        simp

theorem endsWithPat_iff {pat cs : List Char} : endsWithPat pat cs = true ↔ pat <:+ cs := by
  rw [endsWithPat, matchesAt_iff, List.reverse_prefix]

/-- C5 counterexample: the route computes the market identifier with
JavaScript replace, which removes the first occurrence of the text
`.xml` anywhere in the lowercased parameter, not only a trailing suffix:
on the path parameter a.xmlb the code produces ab while the specified
trailing-suffix strip leaves a.xmlb unchanged. -/
theorem c5_trailing_strip_counterexample :
    ¬ (∀ m : String, normalizeMarket m = specNormalizeMarket m) := by
  intro h
  exact absurd (h "a.xmlb") (by decide)

/-- C5 amended: the identifier is the lowercased parameter with the first
occurrence of `.xml` removed; when `.xml` does not occur the identifier
is the lowercase string unchanged (which also matches the specified
trailing strip), and when its first occurrence is the trailing suffix the
result coincides with the specified trailing-suffix strip. -/
theorem c5_trailing_strip_amended (m : String) :
    (findPatIdx xmlPat (jsToLower m).data = none →
      normalizeMarket m = jsToLower m ∧ normalizeMarket m = specNormalizeMarket m) ∧
    (∀ t : List Char, (jsToLower m).data = t ++ xmlPat →
      findPatIdx xmlPat (jsToLower m).data = some t.length →
      normalizeMarket m = specNormalizeMarket m ∧ (normalizeMarket m).data = t) := by
  constructor
  · intro hnone
    have h1 : normalizeMarket m = jsToLower m := by
      unfold normalizeMarket
      rw [replFirst_of_none hnone, strMk_data]
    refine ⟨h1, ?_⟩
    have hend : endsWithPat xmlPat (jsToLower m).data = false := by
      cases he : endsWithPat xmlPat (jsToLower m).data
      · rfl
      · exfalso
        obtain ⟨t, ht⟩ := endsWithPat_iff.mp he
        exact no_occur_of_findPatIdx_none (by decide) hnone t []
          (by rw [← ht]; simp)
    rw [h1]
    unfold specNormalizeMarket
    rw [hend]
    simp
  · intro t hdata hfind
    have hrepl : replFirst xmlPat (jsToLower m).data =
        (jsToLower m).data.take t.length ++ (jsToLower m).data.drop (t.length + xmlPat.length) :=
      replFirst_of_some hfind
    have hlen : (jsToLower m).data.length = t.length + 4 := by
      rw [hdata]
      simp [xmlPat]
    have htake : (jsToLower m).data.take t.length = t := by
      rw [hdata]
      exact List.take_left t xmlPat
    have hdrop : (jsToLower m).data.drop (t.length + xmlPat.length) = [] := by
      apply List.drop_eq_nil_of_le
      rw [hlen]
      simp [xmlPat]
    have hnorm : normalizeMarket m = String.mk t := by
      unfold normalizeMarket
      rw [hrepl, htake, hdrop, List.append_nil]
    have hend : endsWithPat xmlPat (jsToLower m).data = true := by
      rw [endsWithPat_iff]
      exact ⟨t, hdata.symm⟩
    have hspec : specNormalizeMarket m = String.mk t := by
      unfold specNormalizeMarket
      rw [hend]
      simp only [if_pos]
      congr 1
      rw [hlen]
      simpa using htake
    refine ⟨by rw [hnorm, hspec], by rw [hnorm]⟩

/-- Witness for C5 amended at a path parameter whose only occurrence of
`.xml` is the trailing suffix. -/
theorem c5_trailing_strip_amended_witness :
    (jsToLower "Austria.XML").data = ("austria" : String).data ++ xmlPat ∧
    findPatIdx xmlPat (jsToLower "Austria.XML").data = some ("austria" : String).data.length ∧
    (normalizeMarket "Austria.XML" = specNormalizeMarket "Austria.XML" ∧
      (normalizeMarket "Austria.XML").data = ("austria" : String).data) :=
  ⟨by decide, by decide,
    (c5_trailing_strip_amended "Austria.XML").2 ("austria" : String).data (by decide) (by decide)⟩

theorem hmac_data_length (key msg : String) : (hmacSha256Hex key msg).data.length = 64 := rfl

theorem hexDigit_mem : ∀ n < 16, hexDigit n ∈ hexCharsList := by decide

theorem digestHex_chars (h : Hash8) : ∀ c ∈ (digestHex h).data, c ∈ hexCharsList := by
  intro c hc
  simp only [digestHex] at hc
  obtain ⟨n, hn, rfl⟩ := List.mem_map.mp hc
  obtain ⟨l, hl, hnl⟩ := List.mem_flatten.mp hn
  obtain ⟨w, _, rfl⟩ := List.mem_map.mp hl
  have hlt : n < 16 := by
    have : ∀ x ∈ nibbles w, x < 16 := by
      intro x hx
      simp only [nibbles, List.mem_cons, List.not_mem_nil, or_false] at hx
      rcases hx with rfl | rfl | rfl | rfl | rfl | rfl | rfl | rfl <;>
        exact Nat.lt_succ_of_le (Nat.and_le_right)
    exact this n hnl
  exact hexDigit_mem n hlt

theorem hmac_chars (key msg : String) : ∀ c ∈ (hmacSha256Hex key msg).data, c ∈ hexCharsList :=
  digestHex_chars _

theorem hexCharVal_lt : ∀ c ∈ hexCharsList, hexCharVal c < 16 := by decide

theorem hexCharVal_injOn :
    ∀ c ∈ hexCharsList, ∀ c' ∈ hexCharsList, hexCharVal c = hexCharVal c' → c = c' := by
  decide

theorem hvList_lt {l : List Char} (h : ∀ c ∈ l, c ∈ hexCharsList) :
    hvList l < 16 ^ l.length := by
  induction l with
  | nil => simp [hvList]
  | cons c cs ih =>
    have hval : hexCharVal c ≤ 15 :=
      Nat.lt_succ_iff.mp (hexCharVal_lt c (h c (List.mem_cons_self c cs)))
    have hr : hvList cs < 16 ^ cs.length := ih (fun x hx => h x (List.mem_cons_of_mem c hx))
    calc hexCharVal c * 16 ^ cs.length + hvList cs
        < hexCharVal c * 16 ^ cs.length + 16 ^ cs.length := Nat.add_lt_add_left hr _
      _ ≤ 15 * 16 ^ cs.length + 16 ^ cs.length :=
          Nat.add_le_add_right (Nat.mul_le_mul_right _ hval) _
      _ = 16 ^ (cs.length + 1) := by ring
      _ = 16 ^ (c :: cs).length := by rw [List.length_cons]

theorem hvList_inj : ∀ {l₁ l₂ : List Char}, l₁.length = l₂.length →
    (∀ c ∈ l₁, c ∈ hexCharsList) → (∀ c ∈ l₂, c ∈ hexCharsList) →
    hvList l₁ = hvList l₂ → l₁ = l₂ := by
  intro l₁
  induction l₁ with
  | nil =>
    intro l₂ hlen _ _ _
    cases l₂ with
    | nil => rfl
    | cons c cs => cases hlen
  | cons c cs ih =>
    intro l₂ hlen h₁ h₂ hv
    cases l₂ with
    | nil => cases hlen
    | cons c' cs' =>
      have hlen' : cs.length = cs'.length := by simpa using hlen
      have hc : c ∈ hexCharsList := h₁ c (List.mem_cons_self c cs)
      have hc' : c' ∈ hexCharsList := h₂ c' (List.mem_cons_self c' cs')
      have hrest₁ : ∀ x ∈ cs, x ∈ hexCharsList := fun x hx => h₁ x (List.mem_cons_of_mem c hx)
      have hrest₂ : ∀ x ∈ cs', x ∈ hexCharsList := fun x hx => h₂ x (List.mem_cons_of_mem c' hx)
      have hr₁ : hvList cs < 16 ^ cs.length := hvList_lt hrest₁
      have hr₂ : hvList cs' < 16 ^ cs.length := hlen' ▸ hvList_lt hrest₂
      rw [hvList, hvList, ← hlen'] at hv
      have hpow : 0 < 16 ^ cs.length := Nat.pos_pow_of_pos _ (by decide)
      have hheadval : hexCharVal c = hexCharVal c' := by
        have e1 : (hexCharVal c * 16 ^ cs.length + hvList cs) / 16 ^ cs.length = hexCharVal c := by
          rw [Nat.mul_comm, Nat.mul_add_div hpow, Nat.div_eq_of_lt hr₁, Nat.add_zero]
        have e2 : (hexCharVal c' * 16 ^ cs.length + hvList cs') / 16 ^ cs.length = hexCharVal c' := by
          rw [Nat.mul_comm, Nat.mul_add_div hpow, Nat.div_eq_of_lt hr₂, Nat.add_zero]
        rw [← e1, ← e2, hv]
      have hhead : c = c' := hexCharVal_injOn c hc c' hc' hheadval
      have htail : hvList cs = hvList cs' := by
        rw [hheadval] at hv
        exact Nat.add_left_cancel hv
      rw [hhead, ih hlen' hrest₁ hrest₂ htail]

theorem hmac_exists_collision :
    ∃ i j : Nat, i ≠ j ∧
      hmacSha256Hex "s" ("a=" ++ String.mk (List.replicate i 'a')) =
      hmacSha256Hex "s" ("a=" ++ String.mk (List.replicate j 'a')) := by
  have hcard : (Finset.range (16 ^ 64)).card < (Finset.range (16 ^ 64 + 1)).card := by
    simp
  have hmaps : ∀ i ∈ Finset.range (16 ^ 64 + 1),
      hvList (hmacSha256Hex "s" ("a=" ++ String.mk (List.replicate i 'a'))).data ∈
        Finset.range (16 ^ 64) := by
    intro i _
    rw [Finset.mem_range]
    have hlt := hvList_lt (l := (hmacSha256Hex "s" ("a=" ++ String.mk (List.replicate i 'a'))).data)
      (hmac_chars _ _)
    rw [hmac_data_length] at hlt
    exact hlt
  obtain ⟨i, hi, j, hj, hne, heq⟩ :=
    Finset.exists_ne_map_eq_of_card_lt_of_maps_to hcard hmaps
  refine ⟨i, j, hne, ?_⟩
  have hdata := hvList_inj
    (by rw [hmac_data_length, hmac_data_length])
    (hmac_chars _ _) (hmac_chars _ _) heq
  calc hmacSha256Hex "s" ("a=" ++ String.mk (List.replicate i 'a'))
      = String.mk (hmacSha256Hex "s" ("a=" ++ String.mk (List.replicate i 'a'))).data :=
        (strMk_data _).symm
    _ = String.mk (hmacSha256Hex "s" ("a=" ++ String.mk (List.replicate j 'a'))).data := by
        rw [hdata]
    _ = hmacSha256Hex "s" ("a=" ++ String.mk (List.replicate j 'a')) := strMk_data _

theorem lookupCons (k : String) (p : String × String) (rest : Query) :
    List.lookup k (p :: rest) = if k == p.1 then some p.2 else List.lookup k rest := by
  rcases p with ⟨a, b⟩
  rw [List.lookup]
  cases h : k == a
  · rfl
  · rfl

theorem setParam_cons (p : String × String) (rest : Query) (k v : String) :
    setParam (p :: rest) k v = (if p.1 == k then (p.1, v) else p) :: setParam rest k v := rfl

theorem restParamsCons (p : String × String) (l : Query) :
    restParams (p :: l) =
      if !(p.1 == "signature") then p :: restParams l else restParams l := by
  simp only [restParams, List.filter_cons]

theorem setParam_keys (q : Query) (k v : String) :
    (setParam q k v).map Prod.fst = q.map Prod.fst := by
  induction q with
  | nil => rfl
  | cons p rest ih =>
    rw [setParam_cons, List.map_cons, List.map_cons, ih]
    congr 1
    by_cases hp : p.1 = k
    · rw [if_pos (beq_iff_eq.mpr hp)]
    · rw [if_neg (by simp [beq_iff_eq, hp])]

theorem lookup_setParam_ne {k' k : String} (hne : k' ≠ k) (q : Query) (v : String) :
    List.lookup k' (setParam q k v) = List.lookup k' q := by
  induction q with
  | nil => rfl
  | cons p rest ih =>
    rw [setParam_cons]
    by_cases hp : p.1 = k
    · have h1 : (p.1 == k) = true := beq_iff_eq.mpr hp
      have h2 : (k' == p.1) = false := beq_eq_false_iff_ne.mpr (fun h => hne (h.trans hp))
      rw [if_pos h1, lookupCons, lookupCons]
      simp only [h2]
      simp [ih]
    · have h1 : (p.1 == k) = false := beq_eq_false_iff_ne.mpr hp
      rw [if_neg (by simp [h1]), lookupCons, lookupCons]
      by_cases h3 : k' = p.1
      · simp [beq_iff_eq.mpr h3]
      · simp [beq_eq_false_iff_ne.mpr h3, ih]

theorem lookup_setParam_self {k vOld : String} {q : Query}
    (h : List.lookup k q = some vOld) (v : String) :
    List.lookup k (setParam q k v) = some v := by
  induction q with
  | nil => cases h
  | cons p rest ih =>
    rw [lookupCons] at h
    rw [setParam_cons]
    by_cases hp : p.1 = k
    · have h1 : (p.1 == k) = true := beq_iff_eq.mpr hp
      have h2 : (k == p.1) = true := beq_iff_eq.mpr hp.symm
      rw [if_pos h1, lookupCons]
      simp [h2]
    · have h1 : (p.1 == k) = false := beq_eq_false_iff_ne.mpr hp
      have h2 : (k == p.1) = false := beq_eq_false_iff_ne.mpr (fun hh => hp hh.symm)
      rw [h2] at h
      simp only [Bool.false_eq_true, if_false] at h
      rw [if_neg (by simp [h1]), lookupCons]
      simp only [h2]
      simp [ih h]

theorem restParams_setParam {k : String} (hk : k ≠ "signature") (q : Query) (v : String) :
    restParams (setParam q k v) = setParam (restParams q) k v := by
  induction q with
  | nil => rfl
  | cons p rest ih =>
    rw [setParam_cons]
    by_cases hp : p.1 = k
    · have h1 : (p.1 == k) = true := beq_iff_eq.mpr hp
      have h2 : (p.1 == "signature") = false :=
        beq_eq_false_iff_ne.mpr (fun hh => hk (hp ▸ hh))
      rw [if_pos h1, restParamsCons, restParamsCons]
      rw [if_pos (show (!((p.1, v).1 == "signature")) = true by simp [h2]),
          if_pos (show (!(p.1 == "signature")) = true by simp [h2])]
      rw [setParam_cons, if_pos h1, ih]
    · have h1 : (p.1 == k) = false := beq_eq_false_iff_ne.mpr hp
      rw [if_neg (show ¬ ((p.1 == k) = true) by simp [h1])]
      rw [restParamsCons, restParamsCons]
      by_cases hsig : p.1 = "signature"
      · have h2 : (p.1 == "signature") = true := beq_iff_eq.mpr hsig
        rw [if_neg (show ¬ ((!(p.1 == "signature")) = true) by simp [h2]),
            if_neg (show ¬ ((!(p.1 == "signature")) = true) by simp [h2])]
        exact ih
      · have h2 : (p.1 == "signature") = false := beq_eq_false_iff_ne.mpr hsig
        rw [if_pos (show (!(p.1 == "signature")) = true by simp [h2]),
            if_pos (show (!(p.1 == "signature")) = true by simp [h2])]
        rw [setParam_cons, if_neg (show ¬ ((p.1 == k) = true) by simp [h1]), ih]

theorem lookup_restParams {k : String} (hk : k ≠ "signature") (q : Query) :
    List.lookup k (restParams q) = List.lookup k q := by
  induction q with
  | nil => rfl
  | cons p rest ih =>
    rw [restParamsCons, lookupCons]
    by_cases hsig : p.1 = "signature"
    · have h1 : (p.1 == "signature") = true := beq_iff_eq.mpr hsig
      have h2 : (k == p.1) = false :=
        beq_eq_false_iff_ne.mpr (fun hh => hk (hh.trans hsig))
      simp only [h1, Bool.not_true, Bool.false_eq_true, if_false, h2]
      simp [ih]
    · have h1 : (p.1 == "signature") = false := beq_eq_false_iff_ne.mpr hsig
      simp only [h1, Bool.not_false, if_true]
      rw [lookupCons]
      by_cases h3 : k = p.1
      · simp [beq_iff_eq.mpr h3]
      · simp [beq_eq_false_iff_ne.mpr h3, ih]

theorem strAppend_assoc (a b c : String) : a ++ b ++ c = a ++ (b ++ c) := by
  cases a with
  | mk x =>
    cases b with
    | mk y =>
      cases c with
      | mk z =>
        show String.mk ((x ++ y) ++ z) = String.mk (x ++ (y ++ z))
        rw [List.append_assoc]

theorem joinStr_append (X Y : List String) : joinStr (X ++ Y) = joinStr X ++ joinStr Y := by
  induction X with
  | nil => rfl
  | cons x xs ih =>
    show x ++ joinStr (xs ++ Y) = (x ++ joinStr xs) ++ joinStr Y
    rw [ih, strAppend_assoc]

theorem canonical_pair (v d : String) :
    canonicalMessage [("a", v), ("signature", d)] = "a=" ++ v := by
  have h1 : canonicalMessage [("a", v), ("signature", d)] = ("a" ++ "=" ++ v) ++ "" := rfl
  rw [h1, strAppend_empty]
  rfl

theorem canonical_setParam_spec {q : Query} {k vOld : String}
    (hnd : (q.map Prod.fst).Nodup) (hk : k ≠ "signature")
    (hvOld : List.lookup k q = some vOld) (vNew : String) :
    ∃ P S : String,
      canonicalMessage q = P ++ ((k ++ "=" ++ vOld) ++ S) ∧
      canonicalMessage (setParam q k vNew) = P ++ ((k ++ "=" ++ vNew) ++ S) := by
  have hndR : ((restParams q).map Prod.fst).Nodup :=
    hnd.sublist ((List.filter_sublist q).map Prod.fst)
  have hmemR : (k, vOld) ∈ restParams q := by
    apply List.mem_filter.mpr
    exact ⟨lookup_mem hvOld, by simp [beq_iff_eq, hk]⟩
  have hlookR : List.lookup k (restParams q) = some vOld := nodup_mem_lookup hndR hmemR
  have hkkeys : k ∈ (restParams q).map Prod.fst := List.mem_map.mpr ⟨(k, vOld), hmemR, rfl⟩
  have hperm : (List.insertionSort (fun a b : String => a ≤ b)
      ((restParams q).map Prod.fst)).Perm ((restParams q).map Prod.fst) :=
    List.perm_insertionSort _ _
  have hndS : (List.insertionSort (fun a b : String => a ≤ b)
      ((restParams q).map Prod.fst)).Nodup := hperm.nodup_iff.mpr hndR
  have hkS : k ∈ List.insertionSort (fun a b : String => a ≤ b)
      ((restParams q).map Prod.fst) := hperm.mem_iff.mpr hkkeys
  obtain ⟨A, B, hAB⟩ := List.append_of_mem hkS
  rw [hAB] at hndS
  have hdisj := List.nodup_append.mp hndS
  have hkA : k ∉ A := fun hka => (hdisj.2.2 hka) (List.mem_cons_self k B)
  have hkB : k ∉ B := (List.nodup_cons.mp hdisj.2.1).1
  refine ⟨joinStr (A.map (fun k' => k' ++ "=" ++ (List.lookup k' (restParams q)).getD "")),
          joinStr (B.map (fun k' => k' ++ "=" ++ (List.lookup k' (restParams q)).getD "")),
          ?_, ?_⟩
  · unfold canonicalMessage
    rw [hAB, List.map_append, List.map_cons, joinStr_append]
    congr 1
    show (k ++ "=" ++ (List.lookup k (restParams q)).getD "") ++
        joinStr (B.map (fun k' => k' ++ "=" ++ (List.lookup k' (restParams q)).getD "")) = _
    rw [hlookR]
    rfl
  · have hRP : restParams (setParam q k vNew) = setParam (restParams q) k vNew :=
      restParams_setParam hk q vNew
    have hkeysP : (setParam (restParams q) k vNew).map Prod.fst =
        (restParams q).map Prod.fst := setParam_keys _ _ _
    unfold canonicalMessage
    rw [hRP, hkeysP, hAB, List.map_append, List.map_cons, joinStr_append]
    have hmapA : A.map (fun k' => k' ++ "=" ++
          (List.lookup k' (setParam (restParams q) k vNew)).getD "") =
        A.map (fun k' => k' ++ "=" ++ (List.lookup k' (restParams q)).getD "") := by
      apply List.map_congr_left
      intro a ha
      rw [lookup_setParam_ne (fun h => hkA (by rw [← h]; exact ha)) _ _]
    have hmapB : B.map (fun k' => k' ++ "=" ++
          (List.lookup k' (setParam (restParams q) k vNew)).getD "") =
        B.map (fun k' => k' ++ "=" ++ (List.lookup k' (restParams q)).getD "") := by
      apply List.map_congr_left
      intro b hb
      rw [lookup_setParam_ne (fun h => hkB (by rw [← h]; exact hb)) _ _]
    rw [hmapA, hmapB]
    congr 1
    show (k ++ "=" ++ (List.lookup k (setParam (restParams q) k vNew)).getD "") ++
        joinStr (B.map (fun k' => k' ++ "=" ++ (List.lookup k' (restParams q)).getD "")) = _
    rw [lookup_setParam_self hlookR vNew]
    rfl

/-- C3 counterexample: the claim as stated — altering any single
non-signature parameter value always invalidates the original digest —
fails in principle for the concrete HMAC: the digest space is finite
(16 to the 64th lowercase-hex strings), so by the pigeonhole principle two
distinct values of the parameter a under the secret s share a digest, and
verification of the altered mapping against the original digest still
succeeds. -/
theorem c3_single_change_counterexample :
    ¬ (∀ (s : String) (q : Query) (k vOld vNew : String),
        s ≠ "" → (q.map Prod.fst).Nodup → k ≠ "signature" →
        List.lookup "signature" q = some (hmacSha256Hex s (canonicalMessage q)) →
        List.lookup k q = some vOld → vOld ≠ vNew →
        verifyProxySignature (some s) (setParam q k vNew) = false) := by
  intro hclaim
  obtain ⟨i, j, hne, heq⟩ := hmac_exists_collision
  have hvne : String.mk (List.replicate i 'a') ≠ String.mk (List.replicate j 'a') := by
    intro habs
    apply hne
    have h2 := congrArg (fun s : String => s.data.length) habs
    simpa using h2
  have happ := hclaim "s"
    [("a", String.mk (List.replicate i 'a')),
     ("signature", hmacSha256Hex "s" ("a=" ++ String.mk (List.replicate i 'a')))]
    "a" (String.mk (List.replicate i 'a')) (String.mk (List.replicate j 'a'))
    (by decide) (by simp) (by decide)
    (by rw [canonical_pair]; rfl) rfl hvne
  have hsp : setParam
      [("a", String.mk (List.replicate i 'a')),
       ("signature", hmacSha256Hex "s" ("a=" ++ String.mk (List.replicate i 'a')))]
      "a" (String.mk (List.replicate j 'a')) =
      [("a", String.mk (List.replicate j 'a')),
       ("signature", hmacSha256Hex "s" ("a=" ++ String.mk (List.replicate i 'a')))] := rfl
  rw [hsp] at happ
  have hver : verifyProxySignature (some "s")
      [("a", String.mk (List.replicate j 'a')),
       ("signature", hmacSha256Hex "s" ("a=" ++ String.mk (List.replicate i 'a')))] = true := by
    rw [c1_verifier_accepts_iff]
    refine ⟨"s", hmacSha256Hex "s" ("a=" ++ String.mk (List.replicate i 'a')),
      rfl, by decide, rfl, ?_⟩
    rw [canonical_pair]
    exact heq
  rw [happ] at hver
  cases hver

/-- C3 amended: with a correctly signed mapping, verification succeeds;
changing the value of any single non-signature parameter changes the
canonical message, and verification of the altered mapping against the
original digest fails whenever the digest of the altered message differs
from the original one (it can survive only on an HMAC collision). -/
theorem c3_single_change_amended (s : String) (q : Query) (k vOld vNew : String)
    (hs : s ≠ "") (hnd : (q.map Prod.fst).Nodup) (hk : k ≠ "signature")
    (hsig : List.lookup "signature" q = some (hmacSha256Hex s (canonicalMessage q)))
    (hvOld : List.lookup k q = some vOld) (hne : vOld ≠ vNew) :
    verifyProxySignature (some s) q = true ∧
    canonicalMessage (setParam q k vNew) ≠ canonicalMessage q ∧
    (hmacSha256Hex s (canonicalMessage (setParam q k vNew)) ≠
        hmacSha256Hex s (canonicalMessage q) →
      verifyProxySignature (some s) (setParam q k vNew) = false) := by
  refine ⟨?_, ?_, ?_⟩
  · rw [c1_verifier_accepts_iff]
    exact ⟨s, _, rfl, hs, hsig, rfl⟩
  · obtain ⟨P, S, hq, hq'⟩ := canonical_setParam_spec hnd hk hvOld vNew
    rw [hq, hq']
    intro habs
    have hd := congrArg String.data habs
    simp only [strData_append, List.append_assoc] at hd
    have h1 := List.append_cancel_left hd
    have h2 := List.append_cancel_left h1
    have h3 := List.append_cancel_left h2
    have h4 := List.append_cancel_right h3
    have h5 : vNew = vOld := by
      have h6 := congrArg String.mk h4
      rwa [strMk_data, strMk_data] at h6
    exact hne h5.symm
  · intro hdiff
    cases hb : verifyProxySignature (some s) (setParam q k vNew) with
    | false => rfl
    | true =>
      obtain ⟨s', sig', hsec, _, hlu', heq⟩ := (c1_verifier_accepts_iff _ _).mp hb
      obtain rfl : s = s' := Option.some.inj hsec
      rw [lookup_setParam_ne (fun h => hk h.symm) q vNew, hsig] at hlu'
      obtain rfl : sig' = hmacSha256Hex s (canonicalMessage q) := (Option.some.inj hlu').symm
      exact absurd heq.symm hdiff

/-- Witness for C3 amended: secret k, parameter a changed from 1 to 2. -/
theorem c3_single_change_amended_witness :
    verifyProxySignature (some "k")
      [("a", "1"), ("signature", hmacSha256Hex "k" "a=1")] = true ∧
    canonicalMessage (setParam [("a", "1"), ("signature", hmacSha256Hex "k" "a=1")] "a" "2") ≠
      canonicalMessage [("a", "1"), ("signature", hmacSha256Hex "k" "a=1")] ∧
    (hmacSha256Hex "k" (canonicalMessage
          (setParam [("a", "1"), ("signature", hmacSha256Hex "k" "a=1")] "a" "2")) ≠
        hmacSha256Hex "k" (canonicalMessage [("a", "1"), ("signature", hmacSha256Hex "k" "a=1")]) →
      verifyProxySignature (some "k")
        (setParam [("a", "1"), ("signature", hmacSha256Hex "k" "a=1")] "a" "2") = false) :=
  c3_single_change_amended "k" _ "a" "1" "2" (by decide) (by decide) (by decide) rfl rfl (by decide)
